import Mathlib

/-!
Verification of the statrs order-statistics / distribution specification.

The development shallowly embeds the repository's code:

* `src/src/distribution/pareto.rs` — the `Pareto` struct, its constructor and
  the `skewness` implementation.
* `src/src/distribution/multivariate_normal.rs` — the `MultivariateNormal`
  constructor and its `mean`/`variance` accessors.
* the order-statistic / rank engine (selection, quantile family, ranks) —
  only its benchmark harness is under `src/`, so the engine itself is
  modelled from the specification (spec sections 4.1-4.3 and 7); each such
  definition carries a doc comment starting with `Modelled from the spec:`.

IEEE-754 doubles are embedded as exact numbers extended with `nan` and the
two infinities: comparisons against `nan` are false, as in IEEE-754, and
finite arithmetic is exact (rounding is abstracted away).  Samples handed to
the order-statistic engine are NaN-free by hypothesis in every claim, so they
are embedded as lists of rationals.
-/

namespace Statrs

/-- Decidable equality for `Except` results, so that concrete runs of the
embedded fallible operations can be checked by `decide`. -/
instance exceptDecEq {ε α : Type} [DecidableEq ε] [DecidableEq α] :
    DecidableEq (Except ε α) := fun x y =>
  match x, y with
  | .ok a, .ok b =>
      if h : a = b then isTrue (by rw [h])
      else isFalse (by intro hc; cases hc; exact h rfl)
  | .error a, .error b =>
      if h : a = b then isTrue (by rw [h])
      else isFalse (by intro hc; cases hc; exact h rfl)
  | .ok _, .error _ => isFalse (by intro hc; cases hc)
  | .error _, .ok _ => isFalse (by intro hc; cases hc)

/-- Error kinds of the library (`StatsError` in the source; spec section 7
lists the kinds `EmptyInput`, `OutOfRange`, `BadParams`). -/
inductive StatsError where
  | EmptyInput
  | OutOfRange
  | BadParams
deriving DecidableEq

/-- Embedding of an IEEE-754 double for the distribution code: a NaN,
one of the two infinities, or a finite value carried exactly as a rational
(rounding of finite arithmetic is abstracted away; none of the verified
claims depends on it). -/
inductive F where
  | nan
  | inf
  | neginf
  | fin (q : ℚ)
deriving DecidableEq

/-- Embedding of Rust's `f64::is_nan`. -/
def F.isNaN : F → Bool
  | .nan => true
  | _ => false

/-- Embedding of the IEEE-754 `<=` on doubles: any comparison involving a NaN
is false; `-inf <= x <= inf` for every non-NaN `x`; finite values compare as
rationals. -/
def fLe : F → F → Bool
  | .nan, _ => false
  | _, .nan => false
  | .neginf, _ => true
  | _, .neginf => false
  | _, .inf => true
  | .inf, _ => false
  | .fin a, .fin b => decide (a ≤ b)

/-- Embedding of the IEEE-754 `<` on doubles. -/
def fLt : F → F → Bool
  | .nan, _ => false
  | _, .nan => false
  | .neginf, .neginf => false
  | .neginf, _ => true
  | _, .neginf => false
  | .inf, _ => false
  | _, .inf => true
  | .fin a, .fin b => decide (a < b)

/-- Embedding of the IEEE-754 `>` on doubles (`x > y` is `y < x`). -/
def fGt (x y : F) : Bool := fLt y x

/-- Embedding of the IEEE-754 `==` on doubles: NaN is equal to nothing,
including itself. -/
def fEqB : F → F → Bool
  | .nan, _ => false
  | _, .nan => false
  | .inf, .inf => true
  | .inf, _ => false
  | _, .inf => false
  | .neginf, .neginf => true
  | .neginf, _ => false
  | _, .neginf => false
  | .fin a, .fin b => decide (a = b)

/-- The `Pareto` struct of `src/src/distribution/pareto.rs` (fields `scale`
and `shape`, both `f64`). -/
structure Pareto where
  scale : F
  shape : F
deriving DecidableEq

/-- Embedding of `Pareto::new` (pareto.rs lines 49-59): errors with
`StatsError::BadParams` when either argument is NaN or nonpositive, otherwise
stores both arguments unchanged.  The accessors `Pareto::scale` and
`Pareto::shape` (lines 71-73 and 85-87) return the fields and are embedded by
the structure projections of the same names. -/
def Pareto.new (scale shape : F) : Except StatsError Pareto :=
  let is_nan := scale.isNaN || shape.isNaN
  if is_nan || fLe scale (F.fin 0) || fLe shape (F.fin 0) then
    .error .BadParams
  else
    .ok { scale := scale, shape := shape }

/-- Embedding of an IEEE-754 double for arithmetic results: like `F` but with
a real-valued finite payload, so that `sqrt` is available.  Finite arithmetic
is exact (f64 rounding abstracted away) and the special values follow the
IEEE-754 rules. -/
inductive FR where
  | nan
  | inf
  | neginf
  | fin (x : ℝ)

/-- View of the double model `F` inside the arithmetic model `FR`. -/
noncomputable def F.toFR : F → FR
  | .nan => .nan
  | .inf => .inf
  | .neginf => .neginf
  | .fin q => .fin (q : ℝ)

/-- IEEE-754 addition on the arithmetic model: NaN propagates,
`inf + (-inf)` is NaN, infinities absorb finite values. -/
noncomputable def FR.add : FR → FR → FR
  | .nan, _ => .nan
  | _, .nan => .nan
  | .inf, .neginf => .nan
  | .neginf, .inf => .nan
  | .inf, _ => .inf
  | _, .inf => .inf
  | .neginf, _ => .neginf
  | _, .neginf => .neginf
  | .fin a, .fin b => .fin (a + b)

/-- IEEE-754 subtraction on the arithmetic model. -/
noncomputable def FR.sub : FR → FR → FR
  | .nan, _ => .nan
  | _, .nan => .nan
  | .inf, .inf => .nan
  | .neginf, .neginf => .nan
  | .inf, _ => .inf
  | _, .inf => .neginf
  | .neginf, _ => .neginf
  | _, .neginf => .inf
  | .fin a, .fin b => .fin (a - b)

/-- IEEE-754 multiplication on the arithmetic model: NaN propagates and
`0 * inf` is NaN. -/
noncomputable def FR.mul : FR → FR → FR
  | .nan, _ => .nan
  | _, .nan => .nan
  | .inf, .inf => .inf
  | .inf, .neginf => .neginf
  | .neginf, .inf => .neginf
  | .neginf, .neginf => .inf
  | .inf, .fin b => if b = 0 then .nan else if 0 < b then .inf else .neginf
  | .fin a, .inf => if a = 0 then .nan else if 0 < a then .inf else .neginf
  | .neginf, .fin b => if b = 0 then .nan else if 0 < b then .neginf else .inf
  | .fin a, .neginf => if a = 0 then .nan else if 0 < a then .neginf else .inf
  | .fin a, .fin b => .fin (a * b)

/-- IEEE-754 division on the arithmetic model: NaN propagates, `inf / inf`
and `0 / 0` are NaN, a nonzero finite value divided by (positive) zero gives
a signed infinity, finite over infinite gives zero (the model has no signed
zero). -/
noncomputable def FR.div : FR → FR → FR
  | .nan, _ => .nan
  | _, .nan => .nan
  | .inf, .inf => .nan
  | .inf, .neginf => .nan
  | .neginf, .inf => .nan
  | .neginf, .neginf => .nan
  | .inf, .fin b => if 0 ≤ b then .inf else .neginf
  | .neginf, .fin b => if 0 ≤ b then .neginf else .inf
  | .fin _, .inf => .fin 0
  | .fin _, .neginf => .fin 0
  | .fin a, .fin b =>
      if b = 0 then (if a = 0 then .nan else if 0 < a then .inf else .neginf)
      else .fin (a / b)

/-- IEEE-754 square root on the arithmetic model: NaN on negative inputs. -/
noncomputable def FR.sqrt : FR → FR
  | .nan => .nan
  | .inf => .inf
  | .neginf => .nan
  | .fin a => if a < 0 then .nan else .fin (Real.sqrt a)

/-- Embedding of `Pareto::skewness` (pareto.rs lines 285-291).  The source
first runs `assert!(self.shape > 3.0)` — modelled by returning `none` (a
panic) when the comparison fails — and otherwise evaluates
`(2.0 * (self.shape + 1.0) / (self.shape - 3.0)) *
((self.shape - 2.0) / self.shape).sqrt()`. -/
noncomputable def Pareto.skewness (p : Pareto) : Option FR :=
  if fGt p.shape (F.fin 3) then
    some (FR.mul
      (FR.div (FR.mul (FR.fin 2) (FR.add p.shape.toFR (FR.fin 1)))
        (FR.sub p.shape.toFR (FR.fin 3)))
      (FR.sqrt (FR.div (FR.sub p.shape.toFR (FR.fin 2)) p.shape.toFR)))
  else none

/-- Embedding of nalgebra's `Matrix::lower_triangle` restricted to square
matrices: entries on or below the diagonal are kept, the rest are zeroed. -/
def lowerTriangle {n : ℕ} (A : Fin n → Fin n → F) : Fin n → Fin n → F :=
  fun i j => if (j : ℕ) ≤ (i : ℕ) then A i j else F.fin 0

/-- Embedding of nalgebra's `Matrix::upper_triangle`: entries on or above the
diagonal are kept, the rest are zeroed. -/
def upperTriangle {n : ℕ} (A : Fin n → Fin n → F) : Fin n → Fin n → F :=
  fun i j => if (i : ℕ) ≤ (j : ℕ) then A i j else F.fin 0

/-- Matrix transpose. -/
def transposeM {n : ℕ} (A : Fin n → Fin n → F) : Fin n → Fin n → F :=
  fun i j => A j i

/-- Elementwise matrix equality with IEEE-754 `==` on the entries, as
nalgebra's derived `PartialEq` on `f64` matrices compares them. -/
def matEq {n : ℕ} (A B : Fin n → Fin n → F) : Prop :=
  ∀ i j, fEqB (A i j) (B i j) = true

instance {n : ℕ} (A B : Fin n → Fin n → F) : Decidable (matEq A B) := by
  unfold matEq; infer_instance

/-- Whether some entry of a vector is NaN (`mean.iter().any(|f| f.is_nan())`
in the source). -/
def vecHasNaN {n : ℕ} (v : Fin n → F) : Prop := ∃ i, (v i).isNaN = true

instance {n : ℕ} (v : Fin n → F) : Decidable (vecHasNaN v) := by
  unfold vecHasNaN; infer_instance

/-- Whether some entry of a matrix is NaN (`cov.iter().any(|f| f.is_nan())`
in the source). -/
def matHasNaN {n : ℕ} (A : Fin n → Fin n → F) : Prop := ∃ i j, (A i j).isNaN = true

instance {n : ℕ} (A : Fin n → Fin n → F) : Decidable (matHasNaN A) := by
  unfold matHasNaN; infer_instance

/-- Determinant of a rational square matrix by Laplace expansion along the
first row; used to express positive-definiteness by Sylvester's criterion. -/
def detQ : (m : ℕ) → (Fin m → Fin m → ℚ) → ℚ
  | 0, _ => 1
  | m + 1, A =>
      ∑ j : Fin (m + 1), (-1 : ℚ) ^ (j : ℕ) * A 0 j *
        detQ m (fun r c => A r.succ (j.succAbove c))

/-- The leading `k × k` corner of a rational matrix (entries outside the
matrix, never reached for `k ≤ n`, default to zero). -/
def subMat {n : ℕ} (A : Fin n → Fin n → ℚ) (k : ℕ) : Fin k → Fin k → ℚ :=
  fun i j =>
    if h : (i : ℕ) < n ∧ (j : ℕ) < n then A ⟨i, h.1⟩ ⟨j, h.2⟩ else 0

/-- Positive definiteness of a rational matrix via Sylvester's criterion:
every leading principal minor is positive. -/
def posDefQ {n : ℕ} (A : Fin n → Fin n → ℚ) : Prop :=
  ∀ k : Fin n, 0 < detQ ((k : ℕ) + 1) (subMat A ((k : ℕ) + 1))

instance {n : ℕ} (A : Fin n → Fin n → ℚ) : Decidable (posDefQ A) := by
  unfold posDefQ; infer_instance

/-- The finite-value projection of the double model (0 on special values). -/
def ratOf : F → ℚ
  | .fin q => q
  | _ => 0

/-- Whether a double value is finite. -/
def isFinite : F → Bool
  | .fin _ => true
  | _ => false

/-- Modelled from the spec: the Cholesky decomposition performed by the
external matrix library (spec section 1 lists "matrix decomposition routines
used by multivariate distributions" as out of scope, external collaborators;
the repository's own `multivariate_normal.rs` only calls
`nalgebra::Cholesky::new`, whose contract is to return `None` exactly when
the matrix is not positive-definite).  Success is captured by Sylvester's
criterion over the exact rational entries; matrices with non-finite entries
are treated as failing. -/
def choleskySucceeds {n : ℕ} (A : Fin n → Fin n → F) : Prop :=
  (∀ i j, isFinite (A i j) = true) ∧ posDefQ (fun i j => ratOf (A i j))

instance {n : ℕ} (A : Fin n → Fin n → F) : Decidable (choleskySucceeds A) := by
  unfold choleskySucceeds; exact instDecidableAnd

/-- The `MultivariateNormal` struct of
`src/src/distribution/multivariate_normal.rs`, restricted to the fields the
verified claims read: the mean vector `mu` and the covariance matrix `cov`
as passed to the constructor.  The remaining fields (`cov_chol_decomp`,
`precision`, `pdf_const`) are values computed by the external matrix library
and are not consulted by `mean`/`variance`. -/
structure MultivariateNormal (n : ℕ) where
  mu : Fin n → F
  cov : Fin n → Fin n → F

/-- Embedding of `MultivariateNormal::new` (multivariate_normal.rs lines
63-84): errors with `BadParams` when the lower triangle of `cov` differs from
the transpose of its upper triangle or when any entry of `mean` or `cov` is
NaN; then errors with `BadParams` when the Cholesky decomposition of `cov`
fails; otherwise stores `mean` and `cov` unchanged.  (The determinant
computed for `pdf_const` on line 70 cannot fail and does not affect the
result.) -/
def MultivariateNormal.new {n : ℕ} (mean : Fin n → F) (cov : Fin n → Fin n → F) :
    Except StatsError (MultivariateNormal n) :=
  if ¬ matEq (lowerTriangle cov) (transposeM (upperTriangle cov))
      ∨ vecHasNaN mean ∨ matHasNaN cov then
    .error .BadParams
  else if choleskySucceeds cov then
    .ok { mu := mean, cov := cov }
  else
    .error .BadParams

/-- Embedding of the `Mean::mean` impl (multivariate_normal.rs lines
154-156): returns the stored mean vector. -/
def MultivariateNormal.mean {n : ℕ} (d : MultivariateNormal n) : Fin n → F :=
  d.mu

/-- Embedding of the `Covariance::variance` impl (multivariate_normal.rs
lines 168-170): returns the stored covariance matrix. -/
def MultivariateNormal.variance {n : ℕ} (d : MultivariateNormal n) :
    Fin n → Fin n → F :=
  d.cov

/-- Decidable equality of the embedded `MultivariateNormal` values (the
fields are functions on `Fin n`, compared pointwise), so that concrete
constructor runs can be checked by evaluation. -/
instance mvnDecEq {n : ℕ} : DecidableEq (MultivariateNormal n) := fun a b =>
  decidable_of_iff (a.mu = b.mu ∧ a.cov = b.cov) (by
    constructor
    · rintro ⟨h1, h2⟩
      cases a
      cases b
      cases h1
      cases h2
      rfl
    · rintro rfl
      exact ⟨rfl, rfl⟩)

/-- Modelled from the spec: the order-statistic engine's samples (spec
section 3).  Only the benchmark harness of the engine is under `src/`
(`src/benches/order_statistics.rs`); the engine itself
(`select`/`quantile`/`ranks` and the operations built on them) is modelled
from spec sections 4.1-4.3.  Every claim about the engine assumes a NaN-free
sample, so samples are embedded as lists of exact rationals. -/
abbrev Sample := List ℚ

/-- Modelled from the spec: the ascending ordering of a sample that the
Selector's partial selection realises position by position (spec section
4.1: position `k` holds the k-th smallest value).  The engine's quickselect
is an in-place algorithm; its functional semantics at rank `k` is indexing
the fully sorted sample. -/
def sortedOf (s : Sample) : Sample := List.insertionSort (· ≤ ·) s

/-- Modelled from the spec: `select(sample, k)` of spec section 4.1.  Fails
with `EmptyInput` when `n = 0`, with `OutOfRange` when `k < 0` or `k ≥ n`,
and otherwise returns the k-th smallest value (0-indexed). -/
def select (s : Sample) (k : ℤ) : Except StatsError ℚ :=
  if s.length = 0 then .error .EmptyInput
  else if k < 0 ∨ (s.length : ℤ) ≤ k then .error .OutOfRange
  else .ok ((sortedOf s).getD k.toNat 0)

/-- Modelled from the spec: `order_statistic(sample, k)` of spec section 4.2
— the 1-indexed public contract (`k = 1` is the minimum), translated to the
Selector's 0-indexed contract. -/
def order_statistic (s : Sample) (k : ℤ) : Except StatsError ℚ :=
  select s (k - 1)

/-- Modelled from the spec: the continuous position `h = (n - 1) * τ` of
spec section 4.2. -/
def hpos (s : Sample) (tau : ℚ) : ℚ := ((s.length : ℚ) - 1) * tau

/-- Modelled from the spec: `lo = floor(h)` of spec section 4.2. -/
def qlo (s : Sample) (tau : ℚ) : ℤ := Int.floor (hpos s tau)

/-- Modelled from the spec: `hi = ceil(h)` of spec section 4.2. -/
def qhi (s : Sample) (tau : ℚ) : ℤ := Int.ceil (hpos s tau)

/-- Modelled from the spec: `frac = h - lo` of spec section 4.2. -/
def qfrac (s : Sample) (tau : ℚ) : ℚ := hpos s tau - (qlo s tau : ℚ)

/-- Modelled from the spec: `quantile(sample, τ)` of spec section 4.2.
Fails with `BadParams` when `τ` is outside `[0, 1]` or `n = 0`; otherwise
returns `select(sample, lo) * (1 - frac) + select(sample, hi) * frac` (the
linear/R-7 interpolation convention; when `lo = hi` the fraction is zero and
no interpolation happens). -/
def quantile (s : Sample) (tau : ℚ) : Except StatsError ℚ :=
  if tau < 0 ∨ 1 < tau ∨ s.length = 0 then .error .BadParams
  else
    match select s (qlo s tau), select s (qhi s tau) with
    | .ok a, .ok b => .ok (a * (1 - qfrac s tau) + b * qfrac s tau)
    | .error e, _ => .error e
    | .ok _, .error e => .error e

/-- Modelled from the spec: `median(sample)` is `quantile(sample, 0.5)`
(spec section 4.2). -/
def median (s : Sample) : Except StatsError ℚ := quantile s (1 / 2)

/-- Modelled from the spec: `percentile(sample, p)` is
`quantile(sample, p / 100)` (spec section 4.2); `p` outside `[0, 100]` is
rejected by the quantile's own `BadParams` check on `p / 100`. -/
def percentile (s : Sample) (p : ℚ) : Except StatsError ℚ :=
  quantile s (p / 100)

/-- Modelled from the spec: `lower_quartile(sample)` is
`quantile(sample, 0.25)` (spec section 4.2). -/
def lower_quartile (s : Sample) : Except StatsError ℚ := quantile s (1 / 4)

/-- Modelled from the spec: `upper_quartile(sample)` is
`quantile(sample, 0.75)` (spec section 4.2). -/
def upper_quartile (s : Sample) : Except StatsError ℚ := quantile s (3 / 4)

/-- Modelled from the spec: `interquartile_range(sample)` is
`upper_quartile(sample) - lower_quartile(sample)` (spec section 4.2). -/
def interquartile_range (s : Sample) : Except StatsError ℚ :=
  match upper_quartile s, lower_quartile s with
  | .ok u, .ok l => .ok (u - l)
  | .error e, _ => .error e
  | .ok _, .error e => .error e

/-- The tie-break policies of spec section 3 (`RankTieBreaker` in the
benchmark harness). -/
inductive RankTieBreaker where
  | First
  | Average
  | Min
  | Max

/-- Modelled from the spec: the rank assigned by `ranks` (spec section 4.3)
to the element of value `v` sitting at original position `i`.  In the sorted
order, the tie block of `v` starts at sorted position `lt` (0-indexed), where
`lt` counts the elements strictly below `v`, and has length `eq`, the number
of elements equal to `v`; the block occupies the 1-indexed ranks
`lt + 1 .. lt + eq`.  `First` ranks the block in original-index order (stable
sort), so position `i` receives `lt + (equal elements before position i) + 1`;
`Average` assigns the mean `lt + (eq + 1) / 2` of the block's ranks; `Min`
assigns the block's lowest rank `lt + 1`; `Max` its highest, `lt + eq`. -/
def rankOf (s : Sample) (policy : RankTieBreaker) (i : ℕ) (v : ℚ) : ℚ :=
  let lt : ℕ := s.countP (fun x => decide (x < v))
  let eq : ℕ := s.countP (fun x => decide (x = v))
  match policy with
  | .First => (lt : ℚ) + ((s.take i).countP (fun x => decide (x = v)) : ℚ) + 1
  | .Average => (lt : ℚ) + ((eq : ℚ) + 1) / 2
  | .Min => (lt : ℚ) + 1
  | .Max => (lt : ℚ) + (eq : ℚ)

/-- Modelled from the spec: `ranks(sample, policy)` (spec section 4.3).
Fails with `EmptyInput` when `n = 0`; otherwise returns one rank per original
element, scattered back into an output array indexed by each element's
original position. -/
def ranks (s : Sample) (policy : RankTieBreaker) :
    Except StatsError (List ℚ) :=
  if s.length = 0 then .error .EmptyInput
  else .ok (List.ofFn (fun i : Fin s.length => rankOf s policy i (s.get i)))

/-- The minimum of a sample (0 on the empty sample, never consulted there). -/
def listMin : Sample → ℚ
  | [] => 0
  | x :: xs => xs.foldl min x

/-- The maximum of a sample (0 on the empty sample, never consulted there). -/
def listMax : Sample → ℚ
  | [] => 0
  | x :: xs => xs.foldl max x

example : Pareto.new (F.fin 1) (F.fin 2) = .ok ⟨F.fin 1, F.fin 2⟩ := by decide
example : Pareto.new (F.fin 0) (F.fin 0) = .error .BadParams := by decide
example : Pareto.new F.nan (F.fin 1) = .error .BadParams := by decide
example : Pareto.new (F.fin 1) F.inf = .ok ⟨F.fin 1, F.inf⟩ := by decide

example : quantile [1, 2, 3, 4] (1 / 2) = .ok (5 / 2) :=
  of_decide_eq_true (by with_unfolding_all rfl)
example : ranks [1, 2, 2, 3] .First = .ok [1, 2, 3, 4] :=
  of_decide_eq_true (by with_unfolding_all rfl)
example : ranks [1, 2, 2, 3] .Average = .ok [1, 5 / 2, 5 / 2, 4] :=
  of_decide_eq_true (by with_unfolding_all rfl)
example : ranks [1, 2, 2, 3] .Min = .ok [1, 2, 2, 4] :=
  of_decide_eq_true (by with_unfolding_all rfl)
example : ranks [1, 2, 2, 3] .Max = .ok [1, 3, 3, 4] :=
  of_decide_eq_true (by with_unfolding_all rfl)
example : order_statistic [3, 1, 2] 1 = .ok 1 :=
  of_decide_eq_true (by with_unfolding_all rfl)
example : order_statistic [3, 1, 2] 3 = .ok 3 :=
  of_decide_eq_true (by with_unfolding_all rfl)
example : lower_quartile [10, 20, 30, 40] = .ok (35 / 2) :=
  of_decide_eq_true (by with_unfolding_all rfl)
example : upper_quartile [10, 20, 30, 40] = .ok (65 / 2) :=
  of_decide_eq_true (by with_unfolding_all rfl)
example : interquartile_range [10, 20, 30, 40] = .ok 15 :=
  of_decide_eq_true (by with_unfolding_all rfl)

/-! Helper lemmas about the sorted view of a sample. -/

lemma sortedOf_sorted (s : Sample) : (sortedOf s).Sorted (· ≤ ·) :=
  List.sorted_insertionSort _ s

lemma sortedOf_perm (s : Sample) : List.Perm (sortedOf s) s :=
  List.perm_insertionSort _ s

lemma sortedOf_length (s : Sample) : (sortedOf s).length = s.length :=
  (sortedOf_perm s).length_eq

lemma sortedOf_mem {s : Sample} {x : ℚ} (hx : x ∈ sortedOf s) : x ∈ s :=
  (sortedOf_perm s).mem_iff.mp hx

lemma sortedOf_getD_mem {s : Sample} {i : ℕ} (hi : i < s.length) :
    (sortedOf s).getD i 0 ∈ s := by
  have hi2 : i < (sortedOf s).length := by rw [sortedOf_length]; exact hi
  rw [List.getD_eq_getElem _ _ hi2]
  exact sortedOf_mem (List.getElem_mem hi2)

lemma sortedOf_getD_mono {s : Sample} {i j : ℕ} (hij : i ≤ j)
    (hj : j < s.length) :
    (sortedOf s).getD i 0 ≤ (sortedOf s).getD j 0 := by
  have hj2 : j < (sortedOf s).length := by rw [sortedOf_length]; exact hj
  have hi2 : i < (sortedOf s).length := lt_of_le_of_lt hij hj2
  rw [List.getD_eq_getElem _ _ hi2, List.getD_eq_getElem _ _ hj2]
  rcases eq_or_lt_of_le hij with rfl | hlt
  · exact le_refl _
  · exact (sortedOf_sorted s).rel_get_of_lt (a := ⟨i, hi2⟩) (b := ⟨j, hj2⟩) hlt

/-! Helper lemmas about the sample minimum and maximum. -/

lemma foldl_min_le_init (l : List ℚ) (a : ℚ) : l.foldl min a ≤ a := by
  induction l generalizing a with
  | nil => exact le_refl a
  | cons x xs ih =>
      exact le_trans (ih (min a x)) (min_le_left a x)

lemma foldl_min_le_mem {l : List ℚ} {x : ℚ} (hx : x ∈ l) (a : ℚ) :
    l.foldl min a ≤ x := by
  induction l generalizing a with
  | nil => cases hx
  | cons y ys ih =>
      rcases List.mem_cons.mp hx with rfl | hmem
      · exact le_trans (foldl_min_le_init ys (min a x)) (min_le_right a x)
      · exact ih hmem (min a y)

lemma listMin_le_mem {s : Sample} {x : ℚ} (hx : x ∈ s) : listMin s ≤ x := by
  cases s with
  | nil => cases hx
  | cons y ys =>
      rcases List.mem_cons.mp hx with rfl | hmem
      · exact foldl_min_le_init ys x
      · exact foldl_min_le_mem hmem y

lemma init_le_foldl_max (l : List ℚ) (a : ℚ) : a ≤ l.foldl max a := by
  induction l generalizing a with
  | nil => exact le_refl a
  | cons x xs ih =>
      exact le_trans (le_max_left a x) (ih (max a x))

lemma mem_le_foldl_max {l : List ℚ} {x : ℚ} (hx : x ∈ l) (a : ℚ) :
    x ≤ l.foldl max a := by
  induction l generalizing a with
  | nil => cases hx
  | cons y ys ih =>
      rcases List.mem_cons.mp hx with rfl | hmem
      · exact le_trans (le_max_right a x) (init_le_foldl_max ys (max a x))
      · exact ih hmem (max a y)

lemma mem_le_listMax {s : Sample} {x : ℚ} (hx : x ∈ s) : x ≤ listMax s := by
  cases s with
  | nil => cases hx
  | cons y ys =>
      rcases List.mem_cons.mp hx with rfl | hmem
      · exact init_le_foldl_max ys x
      · exact mem_le_foldl_max hmem y

/-! Helper lemmas about the quantile position arithmetic. -/

lemma qindex_bounds {s : Sample} {tau : ℚ} (hs : s.length ≠ 0)
    (h0 : 0 ≤ tau) (h1 : tau ≤ 1) :
    0 ≤ qlo s tau ∧ qlo s tau ≤ qhi s tau ∧
      qhi s tau ≤ (s.length : ℤ) - 1 ∧
      0 ≤ qfrac s tau ∧ qfrac s tau ≤ 1 := by
  have hn : 1 ≤ (s.length : ℚ) := by
    have : 1 ≤ s.length := Nat.one_le_iff_ne_zero.mpr hs
    exact_mod_cast this
  have hpos_nonneg : 0 ≤ hpos s tau := by
    unfold hpos
    have : (0 : ℚ) ≤ (s.length : ℚ) - 1 := by linarith
    exact mul_nonneg this h0
  have hpos_le : hpos s tau ≤ (s.length : ℚ) - 1 := by
    unfold hpos
    have hb : (0 : ℚ) ≤ (s.length : ℚ) - 1 := by linarith
    calc ((s.length : ℚ) - 1) * tau ≤ ((s.length : ℚ) - 1) * 1 :=
          mul_le_mul_of_nonneg_left h1 hb
      _ = (s.length : ℚ) - 1 := mul_one _
  refine ⟨?_, ?_, ?_, ?_, ?_⟩
  · exact Int.floor_nonneg.mpr hpos_nonneg
  · exact Int.floor_le_ceil _
  · rw [qhi, Int.ceil_le]
    push_cast
    exact hpos_le
  · exact sub_nonneg.mpr (Int.floor_le _)
  · have := Int.lt_floor_add_one (hpos s tau)
    unfold qfrac qlo
    linarith

lemma select_ok {s : Sample} {k : ℤ} (h0 : 0 ≤ k) (hn : k < (s.length : ℤ)) :
    select s k = .ok ((sortedOf s).getD k.toNat 0) := by
  have hlen : s.length ≠ 0 := by
    intro h
    rw [h] at hn
    omega
  unfold select
  rw [if_neg hlen, if_neg]
  push_neg
  exact ⟨h0, hn⟩

lemma quantile_ok_eq {s : Sample} {tau : ℚ} (hs : s.length ≠ 0)
    (h0 : 0 ≤ tau) (h1 : tau ≤ 1) :
    quantile s tau =
      .ok ((sortedOf s).getD (qlo s tau).toNat 0 * (1 - qfrac s tau) +
        (sortedOf s).getD (qhi s tau).toNat 0 * qfrac s tau) := by
  obtain ⟨hlo0, hlohi, hhi, _, _⟩ := qindex_bounds hs h0 h1
  have hlo_lt : qlo s tau < (s.length : ℤ) := by omega
  have hhi0 : 0 ≤ qhi s tau := le_trans hlo0 hlohi
  have hhi_lt : qhi s tau < (s.length : ℤ) := by omega
  unfold quantile
  rw [if_neg, select_ok hlo0 hlo_lt, select_ok hhi0 hhi_lt]
  push_neg
  exact ⟨h0, h1, hs⟩

lemma interp_bounds {a b f : ℚ} (hab : a ≤ b) (h0 : 0 ≤ f) (h1 : f ≤ 1) :
    a ≤ a * (1 - f) + b * f ∧ a * (1 - f) + b * f ≤ b := by
  constructor <;> nlinarith

lemma interp_mono {a b f g : ℚ} (hab : a ≤ b) (hfg : f ≤ g) :
    a * (1 - f) + b * f ≤ a * (1 - g) + b * g := by
  nlinarith

/-! Helper lemmas about `Pareto`. -/

lemma pareto_new_ok_fields {scale shape : F} {p : Pareto}
    (h : Pareto.new scale shape = .ok p) :
    p.scale = scale ∧ p.shape = shape ∧
      scale.isNaN = false ∧ shape.isNaN = false := by
  have h2 : (if (scale.isNaN || shape.isNaN || fLe scale (F.fin 0) ||
      fLe shape (F.fin 0)) = true then (Except.error StatsError.BadParams :
      Except StatsError Pareto) else .ok ⟨scale, shape⟩) = .ok p := h
  by_cases hB : (scale.isNaN || shape.isNaN || fLe scale (F.fin 0) ||
      fLe shape (F.fin 0)) = true
  · rw [if_pos hB] at h2
    exact absurd h2 (by simp)
  · rw [if_neg hB] at h2
    have hp : (⟨scale, shape⟩ : Pareto) = p := by injection h2
    subst hp
    have hB2 : (scale.isNaN || shape.isNaN || fLe scale (F.fin 0) ||
        fLe shape (F.fin 0)) = false := Bool.not_eq_true _ ▸ eq_false_of_ne_true hB
    simp only [Bool.or_eq_false_iff] at hB2
    exact ⟨rfl, rfl, hB2.1.1.1, hB2.1.1.2⟩

lemma fGt_three_eq_false_iff {x : F} (hx : x.isNaN = false) :
    fGt x (F.fin 3) = false ↔ fLe x (F.fin 3) = true := by
  cases x with
  | nan => simp [F.isNaN] at hx
  | inf => simp [fGt, fLt, fLe]
  | neginf => simp [fGt, fLt, fLe]
  | fin q =>
      simp only [fGt, fLt, fLe, decide_eq_false_iff_not, decide_eq_true_eq,
        not_lt]

/-- Claim C8: `Pareto::new(scale, shape)` returns `Err(StatsError::BadParams)`
if and only if `scale` is NaN, `shape` is NaN, `scale <= 0.0` or
`shape <= 0.0`; otherwise it returns `Ok`, and on the constructed value
`scale()` and `shape()` return exactly the arguments that were passed in
(including positive infinity, which the hypothesis allows). -/
theorem pareto_new_spec (scale shape : F) :
    (Pareto.new scale shape = .error .BadParams ↔
      scale.isNaN = true ∨ shape.isNaN = true ∨
        fLe scale (F.fin 0) = true ∨ fLe shape (F.fin 0) = true) ∧
    (¬(scale.isNaN = true ∨ shape.isNaN = true ∨
        fLe scale (F.fin 0) = true ∨ fLe shape (F.fin 0) = true) →
      Pareto.new scale shape = .ok ⟨scale, shape⟩) ∧
    (∀ p, Pareto.new scale shape = .ok p →
      p.scale = scale ∧ p.shape = shape) := by
  have h2 : Pareto.new scale shape = (if (scale.isNaN || shape.isNaN ||
      fLe scale (F.fin 0) || fLe shape (F.fin 0)) = true then
      (Except.error StatsError.BadParams : Except StatsError Pareto)
      else .ok ⟨scale, shape⟩) := rfl
  by_cases hB : (scale.isNaN || shape.isNaN || fLe scale (F.fin 0) ||
      fLe shape (F.fin 0)) = true
  · rw [if_pos hB] at h2
    have hdisj : scale.isNaN = true ∨ shape.isNaN = true ∨
        fLe scale (F.fin 0) = true ∨ fLe shape (F.fin 0) = true := by
      simpa only [Bool.or_eq_true, or_assoc] using hB
    refine ⟨⟨fun _ => hdisj, fun _ => h2⟩, fun hc => absurd hdisj hc, ?_⟩
    intro p hp
    rw [h2] at hp
    exact absurd hp (by simp)
  · rw [if_neg hB] at h2
    have hdisj : ¬(scale.isNaN = true ∨ shape.isNaN = true ∨
        fLe scale (F.fin 0) = true ∨ fLe shape (F.fin 0) = true) := by
      intro hc
      exact hB (by simpa only [Bool.or_eq_true, or_assoc] using hc)
    refine ⟨⟨fun he => ?_, fun hc => absurd hc hdisj⟩, fun _ => h2, ?_⟩
    · rw [h2] at he
      exact absurd he (by simp)
    · intro p hp
      rw [h2] at hp
      have hpp : (⟨scale, shape⟩ : Pareto) = p := by injection hp
      subst hpp
      exact ⟨rfl, rfl⟩

/-- Witness for C8 at `scale = 1`, `shape = +inf`: the constructor succeeds
and the accessors return the arguments, including the infinity. -/
theorem pareto_new_spec_witness :
    Pareto.new (F.fin 1) F.inf = .ok ⟨F.fin 1, F.inf⟩ ∧
      Pareto.scale ⟨F.fin 1, F.inf⟩ = F.fin 1 ∧
      Pareto.shape ⟨F.fin 1, F.inf⟩ = F.inf := by
  have h := pareto_new_spec (F.fin 1) F.inf
  have hok := h.2.1 (by decide)
  exact ⟨hok, h.2.2 _ hok⟩

/-- Claim C9: on every constructible `Pareto`, `skewness()` panics (via the
`assert!`) exactly when `shape <= 3.0`, and when `shape > 3.0` it returns
`(2 * (shape + 1) / (shape - 3)) * sqrt((shape - 2) / shape)` without
panicking, so the panic branch is unreachable under `shape > 3`. -/
theorem pareto_skewness_spec (scale shape : F) (p : Pareto)
    (h : Pareto.new scale shape = .ok p) :
    (p.skewness = none ↔ fLe p.shape (F.fin 3) = true) ∧
    (fGt p.shape (F.fin 3) = true →
      p.skewness = some (FR.mul
        (FR.div (FR.mul (FR.fin 2) (FR.add p.shape.toFR (FR.fin 1)))
          (FR.sub p.shape.toFR (FR.fin 3)))
        (FR.sqrt (FR.div (FR.sub p.shape.toFR (FR.fin 2)) p.shape.toFR)))) := by
  obtain ⟨-, hsh, -, hshn⟩ := pareto_new_ok_fields h
  have hnn : p.shape.isNaN = false := by rw [hsh]; exact hshn
  constructor
  · cases hg : fGt p.shape (F.fin 3) with
    | false =>
        have h1 : p.skewness = none := by
          unfold Pareto.skewness
          rw [hg]
          rfl
        simp only [h1, true_iff]
        exact (fGt_three_eq_false_iff hnn).mp hg
    | true =>
        have h1 : p.skewness ≠ none := by
          unfold Pareto.skewness
          rw [hg]
          simp
        have h2 : fLe p.shape (F.fin 3) ≠ true := by
          intro hc
          have := (fGt_three_eq_false_iff hnn).mpr hc
          rw [hg] at this
          cases this
        simp only [iff_iff_implies_and_implies]
        exact ⟨fun hc => absurd hc h1, fun hc => absurd hc h2⟩
  · intro hg
    unfold Pareto.skewness
    rw [hg]
    rfl

/-- Witness for C9 at `scale = 1`, `shape = 4`: the constructor succeeds and
`skewness` does not panic. -/
theorem pareto_skewness_spec_witness :
    Pareto.new (F.fin 1) (F.fin 4) = .ok ⟨F.fin 1, F.fin 4⟩ ∧
      Pareto.skewness ⟨F.fin 1, F.fin 4⟩ ≠ none := by
  refine ⟨by decide, fun hc => ?_⟩
  have h := (pareto_skewness_spec (F.fin 1) (F.fin 4) ⟨F.fin 1, F.fin 4⟩
    (by decide)).1.mp hc
  exact absurd h (by decide)

/-- Claim C10: `MultivariateNormal::new(mean, cov)` returns
`Err(StatsError::BadParams)` exactly when the lower triangle of `cov`
differs from the transpose of its upper triangle, when some entry of `mean`
or `cov` is NaN, or when the Cholesky decomposition of `cov` fails (i.e.
`cov` is not positive-definite); on success `mean()` returns the mean vector
and `variance()` the covariance matrix exactly as passed in. -/
theorem multivariate_normal_new_spec {n : ℕ} (mean : Fin n → F)
    (cov : Fin n → Fin n → F) :
    (MultivariateNormal.new mean cov = .error .BadParams ↔
      ((¬ matEq (lowerTriangle cov) (transposeM (upperTriangle cov)) ∨
        vecHasNaN mean ∨ matHasNaN cov) ∨ ¬ choleskySucceeds cov)) ∧
    (∀ d, MultivariateNormal.new mean cov = .ok d →
      d.mean = mean ∧ d.variance = cov) := by
  unfold MultivariateNormal.new
  by_cases h1 : ¬ matEq (lowerTriangle cov) (transposeM (upperTriangle cov)) ∨
      vecHasNaN mean ∨ matHasNaN cov
  · rw [if_pos h1]
    refine ⟨⟨fun _ => Or.inl h1, fun _ => rfl⟩, ?_⟩
    intro d hd
    exact absurd hd (by simp)
  · rw [if_neg h1]
    by_cases h2 : choleskySucceeds cov
    · rw [if_pos h2]
      refine ⟨⟨fun he => absurd he (by simp), fun hc => ?_⟩, ?_⟩
      · rcases hc with hc | hc
        · exact absurd hc h1
        · exact absurd h2 hc
      · intro d hd
        have hdd : ({ mu := mean, cov := cov } : MultivariateNormal n) = d := by
          injection hd
        subst hdd
        exact ⟨rfl, rfl⟩
    · rw [if_neg h2]
      refine ⟨⟨fun _ => Or.inr h2, fun _ => rfl⟩, ?_⟩
      intro d hd
      exact absurd hd (by simp)

/-- Witness for C10 in dimension 2 with zero mean and identity covariance:
the constructor succeeds and the accessors return the inputs unchanged. -/
theorem multivariate_normal_new_spec_witness :
    MultivariateNormal.new (fun _ : Fin 2 => F.fin 0)
        (fun i j : Fin 2 => if i = j then F.fin 1 else F.fin 0) =
      .ok ⟨fun _ => F.fin 0, fun i j => if i = j then F.fin 1 else F.fin 0⟩ ∧
    MultivariateNormal.mean
        (⟨fun _ => F.fin 0, fun i j => if i = j then F.fin 1 else F.fin 0⟩ :
          MultivariateNormal 2) = (fun _ => F.fin 0) ∧
    MultivariateNormal.variance
        (⟨fun _ => F.fin 0, fun i j => if i = j then F.fin 1 else F.fin 0⟩ :
          MultivariateNormal 2) =
      (fun i j => if i = j then F.fin 1 else F.fin 0) := by
  have hok : MultivariateNormal.new (fun _ : Fin 2 => F.fin 0)
      (fun i j : Fin 2 => if i = j then F.fin 1 else F.fin 0) =
      .ok ⟨fun _ => F.fin 0, fun i j => if i = j then F.fin 1 else F.fin 0⟩ :=
    of_decide_eq_true (by with_unfolding_all rfl)
  have h := (multivariate_normal_new_spec (fun _ : Fin 2 => F.fin 0)
    (fun i j : Fin 2 => if i = j then F.fin 1 else F.fin 0)).2 _ hok
  exact ⟨hok, h.1, h.2⟩

/-! Inversion helpers for the fallible engine operations. -/

lemma select_ok_inv {s : Sample} {k : ℤ} {v : ℚ} (h : select s k = .ok v) :
    s.length ≠ 0 ∧ 0 ≤ k ∧ k < (s.length : ℤ) ∧
      v = (sortedOf s).getD k.toNat 0 := by
  unfold select at h
  by_cases hlen : s.length = 0
  · rw [if_pos hlen] at h
    exact absurd h (by simp)
  · rw [if_neg hlen] at h
    by_cases hk : k < 0 ∨ (s.length : ℤ) ≤ k
    · rw [if_pos hk] at h
      exact absurd h (by simp)
    · rw [if_neg hk] at h
      push_neg at hk
      injection h with h2
      exact ⟨hlen, hk.1, hk.2, h2.symm⟩

lemma quantile_ok_inv {s : Sample} {tau : ℚ} {v : ℚ}
    (h : quantile s tau = .ok v) :
    s.length ≠ 0 ∧ 0 ≤ tau ∧ tau ≤ 1 ∧
      v = (sortedOf s).getD (qlo s tau).toNat 0 * (1 - qfrac s tau) +
        (sortedOf s).getD (qhi s tau).toNat 0 * qfrac s tau := by
  by_cases hc : tau < 0 ∨ 1 < tau ∨ s.length = 0
  · unfold quantile at h
    rw [if_pos hc] at h
    exact absurd h (by simp)
  · push_neg at hc
    obtain ⟨h0, h1, hs⟩ := hc
    have := quantile_ok_eq hs h0 h1
    rw [this] at h
    injection h with h2
    exact ⟨hs, h0, h1, h2.symm⟩

lemma ranks_ok_inv {s : Sample} {policy : RankTieBreaker} {r : List ℚ}
    (h : ranks s policy = .ok r) :
    s.length ≠ 0 ∧
      r = List.ofFn (fun i : Fin s.length => rankOf s policy i (s.get i)) := by
  unfold ranks at h
  by_cases hlen : s.length = 0
  · rw [if_pos hlen] at h
    exact absurd h (by simp)
  · rw [if_neg hlen] at h
    injection h with h2
    exact ⟨hlen, h2.symm⟩

/-- Claim C1: for every non-empty (NaN-free) sample and every τ in [0, 1],
`quantile` computes `h = (n - 1)·τ`, `lo = floor h`, `hi = ceil h`,
`frac = h - lo`, and returns
`select(sample, lo)·(1 - frac) + select(sample, hi)·frac` (the linear/R-7
convention); when `lo = hi` no interpolation happens (the result is the
selected value itself); in particular on the sample `[1,2,3,4]` with
`τ = 1/2` it returns `5/2`. -/
theorem quantile_formula_spec :
    (∀ (s : Sample) (tau : ℚ), s.length ≠ 0 → 0 ≤ tau → tau ≤ 1 →
      ∃ a b, select s (qlo s tau) = .ok a ∧ select s (qhi s tau) = .ok b ∧
        quantile s tau = .ok (a * (1 - qfrac s tau) + b * qfrac s tau) ∧
        (qlo s tau = qhi s tau → quantile s tau = select s (qlo s tau))) ∧
    quantile [1, 2, 3, 4] (1 / 2) = .ok (5 / 2) := by
  constructor
  · intro s tau hs h0 h1
    obtain ⟨hlo0, hlohi, hhi, hf0, hf1⟩ := qindex_bounds hs h0 h1
    have hlo_lt : qlo s tau < (s.length : ℤ) := by omega
    have hhi0 : 0 ≤ qhi s tau := le_trans hlo0 hlohi
    have hhi_lt : qhi s tau < (s.length : ℤ) := by omega
    refine ⟨_, _, select_ok hlo0 hlo_lt, select_ok hhi0 hhi_lt,
      quantile_ok_eq hs h0 h1, ?_⟩
    intro heq
    have hfrac : qfrac s tau = 0 := by
      have ha : (qlo s tau : ℚ) ≤ hpos s tau := Int.floor_le _
      have hb : hpos s tau ≤ (qhi s tau : ℚ) := Int.le_ceil _
      rw [← heq] at hb
      unfold qfrac
      linarith
    rw [quantile_ok_eq hs h0 h1, select_ok hlo0 hlo_lt, hfrac, heq]
    simp
  · exact of_decide_eq_true (by with_unfolding_all rfl)

/-- Witness for C1 at the sample `[2, 1]` and `τ = 1/2`: the select-based
interpolation formula produces `3/2`, and the spec example itself is the
closed second conjunct. -/
theorem quantile_formula_spec_witness :
    select [2, 1] (qlo [2, 1] (1 / 2)) = .ok 1 ∧
      select [2, 1] (qhi [2, 1] (1 / 2)) = .ok 2 ∧
      quantile [2, 1] (1 / 2) = .ok (3 / 2) := by
  obtain ⟨a, b, ha, hb, hq, -⟩ := quantile_formula_spec.1 [2, 1] (1 / 2)
    (by decide) (by norm_num) (by norm_num)
  have ha2 : a = 1 := by
    have : select [2, 1] (qlo [2, 1] (1 / 2)) = .ok 1 :=
      of_decide_eq_true (by with_unfolding_all rfl)
    rw [this] at ha
    injection ha with h2
    exact h2.symm
  have hb2 : b = 2 := by
    have : select [2, 1] (qhi [2, 1] (1 / 2)) = .ok 2 :=
      of_decide_eq_true (by with_unfolding_all rfl)
    rw [this] at hb
    injection hb with h2
    exact h2.symm
  subst ha2
  subst hb2
  refine ⟨ha, hb, ?_⟩
  rw [hq]
  congr 1
  have hfr : qfrac [2, 1] (1 / 2) = 1 / 2 :=
    of_decide_eq_true (by with_unfolding_all rfl)
  rw [hfr]
  norm_num

/-- Claim C3: selection and the operations built on it fail with a typed
error returned to the caller: `select` on an empty sample fails with
`EmptyInput`; `select` with rank `k < 0` or `k ≥ n` fails with `OutOfRange`
(and only then); `quantile` fails with `BadParams` exactly when `τ` is
outside `[0, 1]` or `n = 0`; and the only error `quantile` ever returns is
`BadParams` (nothing is recovered or retried internally). -/
theorem error_conditions_spec :
    (∀ k : ℤ, select [] k = .error .EmptyInput) ∧
    (∀ (s : Sample) (k : ℤ), s.length ≠ 0 →
      (select s k = .error .OutOfRange ↔ (k < 0 ∨ (s.length : ℤ) ≤ k))) ∧
    (∀ (s : Sample) (tau : ℚ),
      quantile s tau = .error .BadParams ↔
        (tau < 0 ∨ 1 < tau ∨ s.length = 0)) ∧
    (∀ (s : Sample) (tau : ℚ) (e : StatsError),
      quantile s tau = .error e → e = .BadParams) := by
  have hquant : ∀ (s : Sample) (tau : ℚ),
      quantile s tau = .error .BadParams ↔
        (tau < 0 ∨ 1 < tau ∨ s.length = 0) := by
    intro s tau
    constructor
    · intro h
      by_contra hc
      push_neg at hc
      obtain ⟨h0, h1, hs⟩ := hc
      rw [quantile_ok_eq hs h0 h1] at h
      exact absurd h (by simp)
    · intro hc
      unfold quantile
      rw [if_pos hc]
  refine ⟨fun k => rfl, ?_, hquant, ?_⟩
  · intro s k hs
    constructor
    · intro h
      by_contra hc
      push_neg at hc
      rw [select_ok hc.1 hc.2] at h
      exact absurd h (by simp)
    · intro hc
      unfold select
      rw [if_neg hs, if_pos hc]
  · intro s tau e h
    by_cases hc : tau < 0 ∨ 1 < tau ∨ s.length = 0
    · have h2 := (hquant s tau).mpr hc
      rw [h2] at h
      injection h with h3
      exact h3.symm
    · push_neg at hc
      obtain ⟨h0, h1, hs⟩ := hc
      rw [quantile_ok_eq hs h0 h1] at h
      exact absurd h (by simp)

/-- Witness for C3: the three failure modes at concrete inputs. -/
theorem error_conditions_spec_witness :
    select [] 0 = .error .EmptyInput ∧
      select [1, 2] 5 = .error .OutOfRange ∧
      select [1, 2] (-1) = .error .OutOfRange ∧
      quantile [1, 2] 2 = .error .BadParams ∧
      quantile [] (1 / 2) = .error .BadParams := by
  refine ⟨error_conditions_spec.1 0, ?_, ?_, ?_, ?_⟩
  · exact (error_conditions_spec.2.1 [1, 2] 5 (by decide)).mpr (by norm_num)
  · exact (error_conditions_spec.2.1 [1, 2] (-1) (by decide)).mpr (by norm_num)
  · exact (error_conditions_spec.2.2.1 [1, 2] 2).mpr (by norm_num)
  · exact (error_conditions_spec.2.2.1 [] (1 / 2)).mpr (by simp)

/-! Helper lemmas for quantile monotonicity. -/

lemma hpos_mono {s : Sample} {t1 t2 : ℚ} (hs : s.length ≠ 0) (h12 : t1 ≤ t2) :
    hpos s t1 ≤ hpos s t2 := by
  have hn : (0 : ℚ) ≤ (s.length : ℚ) - 1 := by
    have : 1 ≤ s.length := Nat.one_le_iff_ne_zero.mpr hs
    have : (1 : ℚ) ≤ (s.length : ℚ) := by exact_mod_cast this
    linarith
  unfold hpos
  exact mul_le_mul_of_nonneg_left h12 hn

lemma quantile_val_mono {s : Sample} {t1 t2 : ℚ} (hs : s.length ≠ 0)
    (h0 : 0 ≤ t1) (h12 : t1 ≤ t2) (h1 : t2 ≤ 1) :
    (sortedOf s).getD (qlo s t1).toNat 0 * (1 - qfrac s t1) +
      (sortedOf s).getD (qhi s t1).toNat 0 * qfrac s t1 ≤
    (sortedOf s).getD (qlo s t2).toNat 0 * (1 - qfrac s t2) +
      (sortedOf s).getD (qhi s t2).toNat 0 * qfrac s t2 := by
  obtain ⟨hlo0A, hlohiA, hhiA, hf0A, hf1A⟩ :=
    qindex_bounds hs h0 (le_trans h12 h1)
  obtain ⟨hlo0B, hlohiB, hhiB, hf0B, hf1B⟩ :=
    qindex_bounds hs (le_trans h0 h12) h1
  have hmono := hpos_mono hs h12
  have hloAB : qlo s t1 ≤ qlo s t2 := Int.floor_le_floor hmono
  have hhiAB : qhi s t1 ≤ qhi s t2 := Int.ceil_le_ceil hmono
  have hceilA : qhi s t1 ≤ qlo s t1 + 1 := Int.ceil_le_floor_add_one _
  have hceilB : qhi s t2 ≤ qlo s t2 + 1 := Int.ceil_le_floor_add_one _
  have habA : (sortedOf s).getD (qlo s t1).toNat 0 ≤
      (sortedOf s).getD (qhi s t1).toNat 0 :=
    sortedOf_getD_mono (by omega) (by omega)
  have habB : (sortedOf s).getD (qlo s t2).toNat 0 ≤
      (sortedOf s).getD (qhi s t2).toNat 0 :=
    sortedOf_getD_mono (by omega) (by omega)
  by_cases hcase : qhi s t1 ≤ qlo s t2
  · have hstep : (sortedOf s).getD (qhi s t1).toNat 0 ≤
        (sortedOf s).getD (qlo s t2).toNat 0 :=
      sortedOf_getD_mono (by omega) (by omega)
    have hA := (interp_bounds habA hf0A hf1A).2
    have hB := (interp_bounds habB hf0B hf1B).1
    linarith
  · push_neg at hcase
    have hloeq : qlo s t1 = qlo s t2 := by omega
    have hhieq : qhi s t1 = qhi s t2 := by omega
    have hfr : qfrac s t1 ≤ qfrac s t2 := by
      unfold qfrac
      rw [hloeq]
      linarith
    rw [hloeq, hhieq]
    exact interp_mono (hloeq ▸ hhieq ▸ habA) hfr

lemma quantile_mono_helper {s : Sample} {t1 t2 q1 q2 : ℚ}
    (h0 : 0 ≤ t1) (h12 : t1 ≤ t2) (h1 : t2 ≤ 1)
    (hq1 : quantile s t1 = .ok q1) (hq2 : quantile s t2 = .ok q2) :
    q1 ≤ q2 := by
  obtain ⟨hs, -, -, he1⟩ := quantile_ok_inv hq1
  obtain ⟨-, -, -, he2⟩ := quantile_ok_inv hq2
  rw [he1, he2]
  exact quantile_val_mono hs h0 h12 h1

/-- Claim C4: `median` is `quantile(·, 0.5)`, `lower_quartile` is
`quantile(·, 0.25)`, `upper_quartile` is `quantile(·, 0.75)` (same
interpolation convention, by construction), and on every non-empty sample
`interquartile_range` equals `upper_quartile - lower_quartile` and is
nonnegative. -/
theorem quartile_consistency_spec :
    (∀ s : Sample, median s = quantile s (1 / 2)) ∧
    (∀ s : Sample, lower_quartile s = quantile s (1 / 4)) ∧
    (∀ s : Sample, upper_quartile s = quantile s (3 / 4)) ∧
    (∀ s : Sample, s.length ≠ 0 →
      ∃ l u, lower_quartile s = .ok l ∧ upper_quartile s = .ok u ∧
        interquartile_range s = .ok (u - l) ∧ 0 ≤ u - l) := by
  refine ⟨fun s => rfl, fun s => rfl, fun s => rfl, ?_⟩
  intro s hs
  have hl : lower_quartile s = .ok ((sortedOf s).getD (qlo s (1 / 4)).toNat 0 *
        (1 - qfrac s (1 / 4)) +
      (sortedOf s).getD (qhi s (1 / 4)).toNat 0 * qfrac s (1 / 4)) :=
    quantile_ok_eq hs (by norm_num) (by norm_num)
  have hu : upper_quartile s = .ok ((sortedOf s).getD (qlo s (3 / 4)).toNat 0 *
        (1 - qfrac s (3 / 4)) +
      (sortedOf s).getD (qhi s (3 / 4)).toNat 0 * qfrac s (3 / 4)) :=
    quantile_ok_eq hs (by norm_num) (by norm_num)
  refine ⟨_, _, hl, hu, ?_, ?_⟩
  · unfold interquartile_range
    rw [hl, hu]
  · have := @quantile_mono_helper s (1 / 4) (3 / 4) _ _
      (by norm_num) (by norm_num) (by norm_num) hl hu
    linarith

/-- Witness for C4 at the sample `[10, 20, 30, 40]` (the spec's quartile
example). -/
theorem quartile_consistency_spec_witness :
    median [10, 20, 30, 40] = quantile [10, 20, 30, 40] (1 / 2) ∧
      ∃ l u, lower_quartile [10, 20, 30, 40] = .ok l ∧
        upper_quartile [10, 20, 30, 40] = .ok u ∧
        interquartile_range [10, 20, 30, 40] = .ok (u - l) ∧ 0 ≤ u - l :=
  ⟨quartile_consistency_spec.1 [10, 20, 30, 40],
    quartile_consistency_spec.2.2.2 [10, 20, 30, 40] (by decide)⟩

/-- Claim C5: for a fixed non-empty NaN-free sample and probabilities
`τ1 ≤ τ2` in `[0, 1]`, `quantile(sample, τ1) ≤ quantile(sample, τ2)`. -/
theorem quantile_monotone_spec (s : Sample) (t1 t2 q1 q2 : ℚ)
    (h0 : 0 ≤ t1) (h12 : t1 ≤ t2) (h1 : t2 ≤ 1)
    (hq1 : quantile s t1 = .ok q1) (hq2 : quantile s t2 = .ok q2) :
    q1 ≤ q2 :=
  quantile_mono_helper h0 h12 h1 hq1 hq2

/-- Witness for C5 at the sample `[1, 2, 3, 4]` with `τ1 = 1/4`,
`τ2 = 3/4`. -/
theorem quantile_monotone_spec_witness :
    quantile [1, 2, 3, 4] (1 / 4) = .ok (7 / 4) ∧
      quantile [1, 2, 3, 4] (3 / 4) = .ok (13 / 4) ∧
      (7 : ℚ) / 4 ≤ 13 / 4 := by
  have hq1 : quantile [1, 2, 3, 4] (1 / 4) = .ok (7 / 4) :=
    of_decide_eq_true (by with_unfolding_all rfl)
  have hq2 : quantile [1, 2, 3, 4] (3 / 4) = .ok (13 / 4) :=
    of_decide_eq_true (by with_unfolding_all rfl)
  exact ⟨hq1, hq2, quantile_monotone_spec [1, 2, 3, 4] (1 / 4) (3 / 4) _ _
    (by norm_num) (by norm_num) (by norm_num) hq1 hq2⟩

/-- Claim C6: every selection and quantile-family operation returns a value
inside `[min(sample), max(sample)]` (median, percentile and the quartiles are
quantile calls by definition, so the quantile conjunct covers them); on a
one-element sample every quantile call returns that sole element. -/
theorem range_containment_spec :
    (∀ (s : Sample) (k : ℤ) (v : ℚ), select s k = .ok v →
      listMin s ≤ v ∧ v ≤ listMax s) ∧
    (∀ (s : Sample) (tau : ℚ) (v : ℚ), quantile s tau = .ok v →
      listMin s ≤ v ∧ v ≤ listMax s) ∧
    (∀ (a tau : ℚ), 0 ≤ tau → tau ≤ 1 → quantile [a] tau = .ok a) := by
  refine ⟨?_, ?_, ?_⟩
  · intro s k v h
    obtain ⟨hs, hk0, hkn, hv⟩ := select_ok_inv h
    have hmem : v ∈ s := by
      rw [hv]
      exact sortedOf_getD_mem (by omega)
    exact ⟨listMin_le_mem hmem, mem_le_listMax hmem⟩
  · intro s tau v h
    obtain ⟨hs, h0, h1, hv⟩ := quantile_ok_inv h
    obtain ⟨hlo0, hlohi, hhi, hf0, hf1⟩ := qindex_bounds hs h0 h1
    have hab : (sortedOf s).getD (qlo s tau).toNat 0 ≤
        (sortedOf s).getD (qhi s tau).toNat 0 :=
      sortedOf_getD_mono (by omega) (by omega)
    have hbnd := interp_bounds hab hf0 hf1
    have hmema : (sortedOf s).getD (qlo s tau).toNat 0 ∈ s :=
      sortedOf_getD_mem (by omega)
    have hmemb : (sortedOf s).getD (qhi s tau).toNat 0 ∈ s :=
      sortedOf_getD_mem (by omega)
    constructor
    · exact le_trans (listMin_le_mem hmema) (hv ▸ hbnd.1)
    · exact le_trans (hv ▸ hbnd.2) (mem_le_listMax hmemb)
  · intro a tau h0 h1
    have hs : ([a] : Sample).length ≠ 0 := by simp
    have hh : hpos [a] tau = 0 := by
      unfold hpos
      simp
    have hlo : qlo [a] tau = 0 := by
      unfold qlo
      rw [hh]
      exact Int.floor_zero
    have hhi : qhi [a] tau = 0 := by
      unfold qhi
      rw [hh]
      exact Int.ceil_zero
    have hfr : qfrac [a] tau = 0 := by
      unfold qfrac
      rw [hh, hlo]
      norm_num
    rw [quantile_ok_eq hs h0 h1, hlo, hhi, hfr]
    norm_num
    rfl

/-- Witness for C6 at `select [3, 1, 2] 0` and `quantile [3, 1, 2] (1/2)` and
the singleton sample `[7]`. -/
theorem range_containment_spec_witness :
    (listMin [3, 1, 2] ≤ 1 ∧ 1 ≤ listMax [3, 1, 2]) ∧
      (listMin [3, 1, 2] ≤ 2 ∧ 2 ≤ listMax [3, 1, 2]) ∧
      quantile [7] (1 / 3) = .ok 7 := by
  refine ⟨?_, ?_, range_containment_spec.2.2 7 (1 / 3) (by norm_num)
    (by norm_num)⟩
  · exact range_containment_spec.1 [3, 1, 2] 0 1
      (of_decide_eq_true (by with_unfolding_all rfl))
  · exact range_containment_spec.2.1 [3, 1, 2] (1 / 2) 2
      (of_decide_eq_true (by with_unfolding_all rfl))

/-! Helper lemmas for rank bounds. -/

lemma countP_lt_add_eq_le (s : Sample) (v : ℚ) :
    s.countP (fun x => decide (x < v)) + s.countP (fun x => decide (x = v)) ≤
      s.length := by
  induction s with
  | nil => simp
  | cons y ys ih =>
      rw [List.countP_cons, List.countP_cons, List.length_cons]
      by_cases h1 : y < v
      · have h2 : ¬(y = v) := ne_of_lt h1
        rw [if_pos (by simpa using h1), if_neg (by simpa using h2)]
        omega
      · rw [if_neg (by simpa using h1)]
        by_cases h2 : y = v
        · rw [if_pos (by simpa using h2)]
          omega
        · rw [if_neg (by simpa using h2)]
          omega

lemma countP_eq_self_pos (s : Sample) (i : Fin s.length) :
    1 ≤ s.countP (fun x => decide (x = s.get i)) := by
  have hmem : s.get i ∈ s := List.get_mem s (i : ℕ) i.isLt
  have hpos : 0 < s.countP (fun x => decide (x = s.get i)) :=
    List.countP_pos_iff.mpr ⟨s.get i, hmem, by simp⟩
  omega

lemma first_rank_le (s : Sample) (i : Fin s.length) :
    s.countP (fun x => decide (x < s.get i)) +
      (s.take (i : ℕ)).countP (fun x => decide (x = s.get i)) + 1 ≤
      s.length := by
  have hsplit : s.countP (fun x => decide (x < s.get i)) =
      (s.take (i : ℕ)).countP (fun x => decide (x < s.get i)) +
        (s.drop (i : ℕ)).countP (fun x => decide (x < s.get i)) := by
    have h := List.countP_append (p := fun x => decide (x < s.get i))
      (s.take (i : ℕ)) (s.drop (i : ℕ))
    rw [List.take_append_drop] at h
    exact h
  have htake := countP_lt_add_eq_le (s.take (i : ℕ)) (s.get i)
  have htlen : (s.take (i : ℕ)).length ≤ (i : ℕ) := List.length_take_le _ _
  have hdrop : (s.drop (i : ℕ)).countP (fun x => decide (x < s.get i)) ≤
      s.length - (i : ℕ) - 1 := by
    have hdeq : s.drop (i : ℕ) = s.get i :: s.drop ((i : ℕ) + 1) := by
      rw [List.drop_eq_getElem_cons i.isLt]
      rfl
    rw [hdeq, List.countP_cons]
    have hvv : decide (s.get i < s.get i) = false := by simp
    rw [hvv, if_neg (by simp)]
    have := List.countP_le_length (p := fun x => decide (x < s.get i))
      (l := s.drop ((i : ℕ) + 1))
    rw [List.length_drop] at this
    omega
  have hlen := i.isLt
  omega

lemma rankOf_bounds (s : Sample) (policy : RankTieBreaker) (i : Fin s.length) :
    1 ≤ rankOf s policy i (s.get i) ∧
      rankOf s policy i (s.get i) ≤ (s.length : ℚ) := by
  have hdisj := countP_lt_add_eq_le s (s.get i)
  have hone := countP_eq_self_pos s i
  have hfirst := first_rank_le s i
  have hltQ : ((s.countP (fun x => decide (x < s.get i)) : ℕ) : ℚ) +
      ((s.countP (fun x => decide (x = s.get i)) : ℕ) : ℚ) ≤ (s.length : ℚ) := by
    exact_mod_cast hdisj
  have honeQ : (1 : ℚ) ≤ ((s.countP (fun x => decide (x = s.get i)) : ℕ) : ℚ) := by
    exact_mod_cast hone
  have hfirstQ : ((s.countP (fun x => decide (x < s.get i)) : ℕ) : ℚ) +
      (((s.take (i : ℕ)).countP (fun x => decide (x = s.get i)) : ℕ) : ℚ) + 1 ≤
      (s.length : ℚ) := by
    exact_mod_cast hfirst
  have hlt0 : (0 : ℚ) ≤ ((s.countP (fun x => decide (x < s.get i)) : ℕ) : ℚ) := by
    positivity
  have htb0 : (0 : ℚ) ≤
      (((s.take (i : ℕ)).countP (fun x => decide (x = s.get i)) : ℕ) : ℚ) := by
    positivity
  cases policy with
  | First =>
      unfold rankOf
      constructor
      · linarith
      · linarith
  | Average =>
      unfold rankOf
      constructor
      · linarith
      · linarith
  | Min =>
      unfold rankOf
      constructor
      · linarith
      · linarith
  | Max =>
      unfold rankOf
      constructor
      · linarith
      · linarith

/-- Claim C2: `ranks(sample, policy)` returns one rank per original element,
positioned in the original input order (the entry at index `i` is the rank of
the i-th input element), with length `n`; on the sample `[1,2,2,3]` it
returns `[1,2,3,4]` under `First`, `[1,2.5,2.5,4]` under `Average`,
`[1,2,2,4]` under `Min` and `[1,3,3,4]` under `Max`. -/
theorem ranks_order_spec :
    (∀ (s : Sample) (policy : RankTieBreaker) (r : List ℚ),
      ranks s policy = .ok r →
        r.length = s.length ∧
        ∀ i : Fin s.length, r.getD (i : ℕ) 0 = rankOf s policy i (s.get i)) ∧
    ranks [1, 2, 2, 3] .First = .ok [1, 2, 3, 4] ∧
    ranks [1, 2, 2, 3] .Average = .ok [1, 5 / 2, 5 / 2, 4] ∧
    ranks [1, 2, 2, 3] .Min = .ok [1, 2, 2, 4] ∧
    ranks [1, 2, 2, 3] .Max = .ok [1, 3, 3, 4] := by
  refine ⟨?_, of_decide_eq_true (by with_unfolding_all rfl),
    of_decide_eq_true (by with_unfolding_all rfl),
    of_decide_eq_true (by with_unfolding_all rfl),
    of_decide_eq_true (by with_unfolding_all rfl)⟩
  intro s policy r h
  obtain ⟨-, hr⟩ := ranks_ok_inv h
  subst hr
  refine ⟨List.length_ofFn _, ?_⟩
  intro i
  have hi : (i : ℕ) < (List.ofFn
      (fun j : Fin s.length => rankOf s policy j (s.get j))).length := by
    rw [List.length_ofFn]
    exact i.isLt
  rw [List.getD_eq_getElem _ _ hi, List.getElem_ofFn]

/-- Witness for C2: the length/order part applied to the concrete `First`
run on `[1,2,2,3]`. -/
theorem ranks_order_spec_witness :
    ([1, 2, 3, 4] : List ℚ).length = ([1, 2, 2, 3] : Sample).length := by
  exact (ranks_order_spec.1 [1, 2, 2, 3] .First [1, 2, 3, 4]
    ranks_order_spec.2.1).1

/-! Helper lemmas for the Average rank-sum invariant. -/

lemma countP_eq_sum_get (p : ℚ → Bool) (l : List ℚ) :
    ((l.countP p : ℕ) : ℚ) =
      ∑ j : Fin l.length, if p (l.get j) = true then (1 : ℚ) else 0 := by
  induction l with
  | nil => simp
  | cons x xs ih =>
      rw [List.countP_cons]
      push_cast
      rw [ih]
      have h2 : (∑ j : Fin ((x :: xs).length),
          if p ((x :: xs).get j) = true then (1 : ℚ) else 0) =
          (if p x = true then (1 : ℚ) else 0) +
            ∑ j : Fin xs.length, if p (xs.get j) = true then (1 : ℚ) else 0 :=
        Fin.sum_univ_succ _
      rw [h2]
      exact add_comm _ _

lemma sum_trichotomy (v w : ℚ) :
    (if v < w then (1 : ℚ) else 0) + (if w < v then (1 : ℚ) else 0) +
      (if v = w then (1 : ℚ) else 0) = 1 := by
  rcases lt_trichotomy v w with h | h | h
  · rw [if_pos h, if_neg (lt_asymm h), if_neg (ne_of_lt h)]
    norm_num
  · subst h
    simp
  · rw [if_neg (lt_asymm h), if_pos h, if_neg (ne_of_gt h)]
    norm_num

lemma avg_rank_sum (s : Sample) :
    (∑ i : Fin s.length, rankOf s .Average i (s.get i)) =
      (s.length : ℚ) * ((s.length : ℚ) + 1) / 2 := by
  classical
  have hL : ∀ i : Fin s.length,
      ((s.countP (fun x => decide (x < s.get i)) : ℕ) : ℚ) =
      ∑ j : Fin s.length, if s.get j < s.get i then (1 : ℚ) else 0 := by
    intro i
    rw [countP_eq_sum_get]
    exact Finset.sum_congr rfl (fun j _ => by simp only [decide_eq_true_eq])
  have hE : ∀ i : Fin s.length,
      ((s.countP (fun x => decide (x = s.get i)) : ℕ) : ℚ) =
      ∑ j : Fin s.length, if s.get j = s.get i then (1 : ℚ) else 0 := by
    intro i
    rw [countP_eq_sum_get]
    exact Finset.sum_congr rfl (fun j _ => by simp only [decide_eq_true_eq])
  have hstep : (∑ i : Fin s.length, rankOf s .Average i (s.get i)) =
      (∑ i : Fin s.length, ∑ j : Fin s.length,
          if s.get j < s.get i then (1 : ℚ) else 0) +
        ((∑ i : Fin s.length, ∑ j : Fin s.length,
          if s.get j = s.get i then (1 : ℚ) else 0) + (s.length : ℚ)) / 2 := by
    have h1 : ∀ i : Fin s.length, rankOf s .Average i (s.get i) =
        (∑ j : Fin s.length, if s.get j < s.get i then (1 : ℚ) else 0) +
          ((∑ j : Fin s.length, if s.get j = s.get i then (1 : ℚ) else 0) + 1) /
            2 := by
      intro i
      unfold rankOf
      rw [← hL i, ← hE i]
    rw [Finset.sum_congr rfl (fun i _ => h1 i), Finset.sum_add_distrib]
    congr 1
    rw [← Finset.sum_div]
    congr 1
    rw [Finset.sum_add_distrib]
    congr 1
    simp [Finset.card_univ]
  have hswap : (∑ i : Fin s.length, ∑ j : Fin s.length,
      if s.get i < s.get j then (1 : ℚ) else 0) =
      (∑ i : Fin s.length, ∑ j : Fin s.length,
      if s.get j < s.get i then (1 : ℚ) else 0) := Finset.sum_comm
  have htotal : (∑ i : Fin s.length, ∑ j : Fin s.length,
        if s.get j < s.get i then (1 : ℚ) else 0) +
      (∑ i : Fin s.length, ∑ j : Fin s.length,
        if s.get i < s.get j then (1 : ℚ) else 0) +
      (∑ i : Fin s.length, ∑ j : Fin s.length,
        if s.get j = s.get i then (1 : ℚ) else 0) =
      (s.length : ℚ) * (s.length : ℚ) := by
    simp only [← Finset.sum_add_distrib]
    rw [Finset.sum_congr rfl (fun i _ => Finset.sum_congr rfl
      (fun j _ => sum_trichotomy (s.get j) (s.get i)))]
    simp [Finset.card_univ]
  rw [hstep]
  rw [hswap] at htotal
  linarith [htotal]

/-- Claim C7: for every non-empty NaN-free sample of length `n`, the ranks
returned under `Average` sum to `n(n+1)/2` regardless of tie structure, and
every rank produced under any policy lies in `[1, n]`. -/
theorem rank_sum_bounds_spec :
    (∀ (s : Sample) (r : List ℚ), ranks s .Average = .ok r →
      r.sum = (s.length : ℚ) * ((s.length : ℚ) + 1) / 2) ∧
    (∀ (s : Sample) (policy : RankTieBreaker) (r : List ℚ),
      ranks s policy = .ok r →
      ∀ x ∈ r, 1 ≤ x ∧ x ≤ (s.length : ℚ)) := by
  constructor
  · intro s r h
    obtain ⟨-, hr⟩ := ranks_ok_inv h
    subst hr
    rw [List.sum_ofFn]
    exact avg_rank_sum s
  · intro s policy r h x hx
    obtain ⟨-, hr⟩ := ranks_ok_inv h
    subst hr
    rw [List.mem_ofFn] at hx
    obtain ⟨i, hi⟩ := hx
    rw [← hi]
    exact rankOf_bounds s policy i

/-- Witness for C7 at the tied sample `[1, 2, 2, 3]`: the `Average` ranks
sum to `4·5/2 = 10` and the fractional rank `5/2` lies in `[1, 4]`. -/
theorem rank_sum_bounds_spec_witness :
    ([1, 5 / 2, 5 / 2, 4] : List ℚ).sum =
      (([1, 2, 2, 3] : Sample).length : ℚ) *
        ((([1, 2, 2, 3] : Sample).length : ℚ) + 1) / 2 ∧
      (1 : ℚ) ≤ 5 / 2 ∧ (5 : ℚ) / 2 ≤ (([1, 2, 2, 3] : Sample).length : ℚ) := by
  have hok : ranks [1, 2, 2, 3] .Average = .ok [1, 5 / 2, 5 / 2, 4] :=
    of_decide_eq_true (by with_unfolding_all rfl)
  refine ⟨rank_sum_bounds_spec.1 [1, 2, 2, 3] _ hok, ?_⟩
  exact rank_sum_bounds_spec.2 [1, 2, 2, 3] .Average _ hok (5 / 2)
    (by norm_num)

end Statrs
